import Mathlib

/-!
Shallow embedding of the cargo-management backend (src/server.py).

Conventions used throughout:
* JSON timestamps become `Nat` values (seconds).  The comparison
  `datetime.now() - created < timedelta(days=30)` becomes
  `now - created < thirtyDays` with truncated `Nat` subtraction, which agrees
  with the Python semantics also for `created` in the future (both sides
  treat a non-positive difference as smaller than 30 days).
* Python dicts holding entities become structures; dicts used as maps
  (the sync merge map, `settings`) become association lists with the
  insertion-order update semantics of a Python dict: assignment to an
  existing key replaces the value in place, assignment to a fresh key
  appends at the end.
* A field read through `dict.get(key, default)` is modelled by a total field
  whose value is the default when the key is absent; every read of
  `syncVersion` in the source goes through `get(..., 0)`, so a missing
  field and the value `0` are observationally identical to all server code.
* SHA-256 is modelled by an opaque injective string encoding; no claim
  depends on actual hash values.
-/

/-- Scalar setting values (`settings` maps string keys to numbers or strings).
The numeric seed value `88.5` is represented exactly as a rational. -/
inductive SettingVal where
  | num (q : ℚ)
  | str (s : String)
deriving DecidableEq, Repr

structure Device where
  deviceId : String
  deviceName : String
  firstSeen : Nat
  lastSeen : Nat
deriving DecidableEq, Repr

structure User where
  id : String
  email : String
  password : String
  isAdmin : Bool
  createdAt : Nat
  lastSync : Nat
  lastActivity : Nat
  devices : List Device
deriving DecidableEq, Repr

structure Session where
  token : String
  userId : String
  deviceId : Option String
  created : Nat
deriving DecidableEq, Repr

/-- A server-side Order record (one element of the orders list of the Snapshot). -/
structure Order where
  id : String
  userId : String
  userEmail : String
  fileName : String
  uploadDate : String
  data : List (List String)
  createdAt : Nat
  updatedAt : Nat
  syncVersion : Nat
deriving DecidableEq, Repr

/-- An Order as submitted by a sync client: the id key may be absent.
All other fields are carried verbatim; a missing `syncVersion` reads as `0`
through the defaulting get accessor. -/
structure ClientOrder where
  id : Option String
  userId : String
  userEmail : String
  fileName : String
  uploadDate : String
  data : List (List String)
  createdAt : Nat
  updatedAt : Nat
  syncVersion : Nat
deriving DecidableEq, Repr

/-- The client dict viewed as a server Order once its `id` key holds `oid`. -/
def ClientOrder.toOrder (co : ClientOrder) (oid : String) : Order :=
  { id := oid
    userId := co.userId
    userEmail := co.userEmail
    fileName := co.fileName
    uploadDate := co.uploadDate
    data := co.data
    createdAt := co.createdAt
    updatedAt := co.updatedAt
    syncVersion := co.syncVersion }

/-- The whole persisted JSON document (the Snapshot).  The unused
forward-compatibility key `sync_log` carries no information relevant to any
claim and is omitted. -/
structure DB where
  users : List User
  orders : List Order
  settings : List (String × SettingVal)
  sessions : List Session
deriving DecidableEq, Repr

/-! ### Association lists with Python-dict update semantics -/

/-- Lookup in an association list of Orders (`merged_orders[k]`). -/
def alistGet : List (String × Order) → String → Option Order
  | [], _ => none
  | p :: rest, k => if p.1 = k then some p.2 else alistGet rest k

/-- `merged_orders[k] = v` on a Python dict: replace in place if the key is
present, append otherwise.  All maps in the source are built from the empty
dict through this operation, so keys stay unique. -/
def alistInsert : List (String × Order) → String → Order → List (String × Order)
  | [], k, v => [(k, v)]
  | p :: rest, k, v => if p.1 = k then (k, v) :: rest else p :: alistInsert rest k v

/-- Lookup in the settings dict. -/
def settingsGet : List (String × SettingVal) → String → Option SettingVal
  | [], _ => none
  | p :: rest, k => if p.1 = k then some p.2 else settingsGet rest k

/-- Assignment of a settings key with Python dict semantics. -/
def settingsInsert : List (String × SettingVal) → String → SettingVal → List (String × SettingVal)
  | [], k, v => [(k, v)]
  | p :: rest, k, v => if p.1 = k then (k, v) :: rest else p :: settingsInsert rest k v

/-! ### Seed data and helpers -/

/-- `hashlib.sha256(password.encode()).hexdigest()`, modelled as an opaque
injective encoding. -/
def hash_password (password : String) : String :=
  "sha256:" ++ password

/-- `timedelta(days=30)` in seconds. -/
def thirtyDays : Nat := 30 * 24 * 60 * 60

/-- The seed currency rate `88.5`, written as the reduced fraction
`177/2` in constructor form so that it evaluates inside the kernel. -/
def kgzRateSeed : ℚ := ⟨177, 2, by decide, by decide⟩

/-- Compiled-in defaults used by `get_setting` when a key is absent. -/
def setting_defaults : List (String × SettingVal) :=
  [("kgz_rate", SettingVal.num kgzRateSeed),
   ("company_name", SettingVal.str "Cargo Management System"),
   ("company_phone", SettingVal.str "+996 XXX XXX XXX")]

/-- The default Snapshot written by `init_db` on first boot: one admin User,
no Orders, default settings, no Sessions.  `adminId` stands for the
generated uuid and `now` for the boot timestamp. -/
def seedDB (adminId : String) (now : Nat) : DB :=
  { users := [{ id := adminId
                email := "12abc202@gmail.com"
                password := hash_password "Abu_1610"
                isAdmin := true
                createdAt := now
                lastSync := now
                lastActivity := now
                devices := [] }]
    orders := []
    settings := setting_defaults
    sessions := [] }

/-! ### Store: load_db / init_db (src/server.py lines 59-128)

The on-disk file is either missing, present but unparsable, or present with
a parsable Snapshot.  `load_db` first checks the in-memory cache
(`db_cache` plus the staleness comparison of the file mtime against
`db_last_modified`, modelled by the flag `cacheFresh`); on a cache miss it
reads the file; any exception (missing file, JSON parse error) lands in the
bare `except:` which calls `init_db`.  `init_db` seeds a default Snapshot
only when the file does not exist, then returns `load_db()` — the two
functions are mutually recursive, so we embed them with an explicit fuel
argument; a result of `none` means the fuel ran out, i.e. the mutual
recursion did not terminate within the given depth. -/

inductive FileContent where
  | missing
  | corrupt
  | good (db : DB)
deriving DecidableEq, Repr

structure StoreState where
  file : FileContent
  cache : Option DB
  /-- models `os.path.getmtime(DB_FILE) <= db_last_modified` -/
  cacheFresh : Bool
deriving DecidableEq, Repr

/-- Mutual body of `load_db` (flag `true`) and `init_db` (flag `false`),
with `adminId`/`now` standing for the uuid and timestamp used by the seed. -/
def store_fuel (adminId : String) (now : Nat) : Nat → Bool → StoreState → Option (DB × StoreState)
  | 0, _, _ => none
  | fuel + 1, true, s =>
    -- load_db: cache check, then file read, bare except falls to init_db
    match s.cache with
    | some c =>
      if s.file ≠ FileContent.missing ∧ s.cacheFresh then
        some (c, s)
      else
        match s.file with
        | FileContent.good db => some (db, { s with cache := some db, cacheFresh := true })
        | _ => store_fuel adminId now fuel false s
    | none =>
      match s.file with
      | FileContent.good db => some (db, { s with cache := some db, cacheFresh := true })
      | _ => store_fuel adminId now fuel false s
  | fuel + 1, false, s =>
    -- init_db: seed only when the file does not exist, then return load_db()
    match s.file with
    | FileContent.missing =>
      let db := seedDB adminId now
      store_fuel adminId now fuel true
        { file := FileContent.good db, cache := some db, cacheFresh := true }
    | _ => store_fuel adminId now fuel true s

def load_db_fuel (adminId : String) (now : Nat) (fuel : Nat) (s : StoreState) :
    Option (DB × StoreState) :=
  store_fuel adminId now fuel true s

/-! ### Shallow-copy semantics of the cache-hit path (for the framing claim)

`load_db` returns `db_cache.copy()` — a SHALLOW copy: the top-level dict is
duplicated but the nested collections (`users`, `orders`, `sessions`,
`settings`) remain the very same Python objects.  We model object identity
one level deep: a `DBRef` holds the addresses of the four nested
collections inside a `Heap`; copying the top-level dict copies the record
of addresses, leaving the addresses shared. -/

structure DBRef where
  usersA : Nat
  ordersA : Nat
  sessionsA : Nat
  settingsA : Nat
deriving DecidableEq, Repr

structure Heap where
  userCells : Nat → List User
  orderCells : Nat → List Order
  sessionCells : Nat → List Session
  settingCells : Nat → List (String × SettingVal)

/-- In-place mutation of the orders list stored at address `a`
(e.g. appending to the orders list of a snapshot, or editing an element). -/
def writeOrderCell (h : Heap) (a : Nat) (l : List Order) : Heap :=
  { h with orderCells := fun a2 => if a2 = a then l else h.orderCells a2 }

/-- The Snapshot value a holder of `r` observes in heap `h`. -/
def snapshotView (h : Heap) (r : DBRef) : DB :=
  { users := h.userCells r.usersA
    orders := h.orderCells r.ordersA
    settings := h.settingCells r.settingsA
    sessions := h.sessionCells r.sessionsA }

/-- The cache-hit branch of `load_db`: `return db_cache.copy()`.  The
top-level dict is fresh, but it holds the same nested addresses as the
cached dict. -/
def load_db_cacheHit (cacheRef : DBRef) : DBRef := cacheRef

/-! ### Session Manager: verify_token (src/server.py lines 136-168) -/

/-- The inner user-resolution loop: find the first user with the given id,
stamp `lastActivity = now` on it, return the stamped user and the updated
users list.  Returns `(none, users)` when no user matches. -/
def stampFirst (now : Nat) (uid : String) : List User → Option User × List User
  | [] => (none, [])
  | u :: rest =>
    if u.id = uid then
      let u2 := { u with lastActivity := now }
      (some u2, u2 :: rest)
    else
      let (r, rest2) := stampFirst now uid rest
      (r, u :: rest2)

/-- One iteration of the session loop: accumulate active sessions; on a
token match, resolve (and possibly overwrite) the user via `stampFirst`. -/
def verifyFold (now : Nat) (token : String)
    (acc : List Session × Option User × List User) (s : Session) :
    List Session × Option User × List User :=
  let (active, user, users) := acc
  if now - s.created < thirtyDays then
    if s.token = token then
      match stampFirst now s.userId users with
      | (some u, users2) => (active ++ [s], some u, users2)
      | (none, users2) => (active ++ [s], user, users2)
    else (active ++ [s], user, users)
  else (active, user, users)

/-- `verify_token(token)`: returns the resolved user (or none), the
Snapshot as it stands after the call, and whether the pruned session list
was persisted (`save_db` ran). -/
def verify_token (now : Nat) (token : String) (db : DB) : Option User × DB × Bool :=
  if token = "" then (none, db, false)
  else
    let r := db.sessions.foldl (verifyFold now token) ([], none, db.users)
    if r.1.length ≠ db.sessions.length then
      (r.2.1, { db with sessions := r.1, users := r.2.2 }, true)
    else
      (r.2.1, { db with users := r.2.2 }, false)

/-! ### Order Repository (src/server.py lines 338-448) -/

/-- GET /api/orders body after authentication: admin sees every Order,
others only their own. -/
def get_orders (user : User) (db : DB) : List Order :=
  if user.isAdmin then db.orders
  else db.orders.filter (fun o => decide (o.userId = user.id))

/-- The in-place dedup update performed by `create_order` on a
filename+owner match: replace `data`, refresh `updatedAt`, bump
`syncVersion`. -/
def reuploadBump (now : Nat) (payload : List (List String)) (o : Order) : Order :=
  { o with data := payload, updatedAt := now, syncVersion := o.syncVersion + 1 }

/-- The duplicate-check loop of `create_order`: walk the order list; at the
first Order with the same `fileName` and `userId`, update it in place and
stop.  Returns the rewritten list and the updated Order, or `none` when no
Order matches. -/
def createDedup (now : Nat) (fileName : String) (uid : String)
    (payload : List (List String)) : List Order → Option (List Order × Order)
  | [] => none
  | o :: rest =>
    if o.fileName = fileName ∧ o.userId = uid then
      let o2 := reuploadBump now payload o
      some (o2 :: rest, o2)
    else
      match createDedup now fileName uid payload rest with
      | some (l, r) => some (o :: l, r)
      | none => none

/-- POST /api/orders body after authentication.  `freshId` stands for the
generated uuid.  Returns the new Snapshot, the Order reported to the
client, and the `updated` flag (`true` = in-place re-upload,
`false` = appended with `syncVersion = 1`). -/
def create_order (now : Nat) (freshId : String) (user : User)
    (fileName uploadDate : String) (payload : List (List String)) (db : DB) :
    DB × Order × Bool :=
  match createDedup now fileName user.id payload db.orders with
  | some (orders2, o2) => ({ db with orders := orders2 }, o2, true)
  | none =>
    let newOrder : Order :=
      { id := freshId
        userId := user.id
        userEmail := user.email
        fileName := fileName
        uploadDate := uploadDate
        data := payload
        createdAt := now
        updatedAt := now
        syncVersion := 1 }
    ({ db with orders := db.orders ++ [newOrder] }, newOrder, false)

/-- A PUT /api/orders/(id) request body: `order.update(data)` shallow-merges
an arbitrary JSON dict into the Order dict, so every Order key may be
overwritten by the patch; absent keys leave the field unchanged. -/
structure Patch where
  id : Option String := none
  userId : Option String := none
  userEmail : Option String := none
  fileName : Option String := none
  uploadDate : Option String := none
  data : Option (List (List String)) := none
  createdAt : Option Nat := none
  updatedAt : Option Nat := none
  syncVersion : Option Nat := none
deriving DecidableEq, Repr

/-- `order.update(patch)`. -/
def applyPatch (o : Order) (p : Patch) : Order :=
  { id := p.id.getD o.id
    userId := p.userId.getD o.userId
    userEmail := p.userEmail.getD o.userEmail
    fileName := p.fileName.getD o.fileName
    uploadDate := p.uploadDate.getD o.uploadDate
    data := p.data.getD o.data
    createdAt := p.createdAt.getD o.createdAt
    updatedAt := p.updatedAt.getD o.updatedAt
    syncVersion := p.syncVersion.getD o.syncVersion }

/-- Replace the first Order whose id is `orderId` (the indexed write-back
performed by `update_order`). -/
def replaceFirst (orderId : String) (o2 : Order) : List Order → List Order
  | [] => []
  | o :: rest => if o.id = orderId then o2 :: rest else o :: replaceFirst orderId o2 rest

inductive UpdateResult where
  | notFound
  | forbidden
  | ok (db : DB) (o : Order)
deriving DecidableEq, Repr

/-- PUT /api/orders/(order_id) body after authentication: find the Order,
check ownership, apply the patch, stamp `updatedAt`, bump `syncVersion`
from its post-patch value, persist. -/
def update_order (now : Nat) (user : User) (orderId : String) (p : Patch) (db : DB) :
    UpdateResult :=
  match db.orders.find? (fun o => decide (o.id = orderId)) with
  | none => UpdateResult.notFound
  | some o =>
    if ¬ user.isAdmin ∧ o.userId ≠ user.id then UpdateResult.forbidden
    else
      let o2 := applyPatch o p
      let o3 := { o2 with updatedAt := now, syncVersion := o2.syncVersion + 1 }
      UpdateResult.ok { db with orders := replaceFirst orderId o3 db.orders } o3

/-! ### Settings endpoints (src/server.py lines 816-853) -/

inductive SettingsResponse where
  | ok (v : SettingVal)
  | notFound
  | unauthorized
deriving DecidableEq, Repr

/-- GET /api/settings/(key).  The route reads no Authorization header and
never calls `verify_token`; the `token` parameter of the model is carried
only so the never-unauthorized property can be stated over every request. -/
def get_setting (_token : String) (key : String) (db : DB) : SettingsResponse :=
  match settingsGet db.settings key with
  | some v => SettingsResponse.ok v
  | none =>
    match settingsGet setting_defaults key with
    | some v => SettingsResponse.ok v
    | none => SettingsResponse.notFound

inductive SetSettingResponse where
  | ok (db : DB) (key : String) (v : SettingVal)
  | unauthorized
deriving DecidableEq, Repr

/-- POST /api/settings/(key): requires a valid token, then stores the value
and persists. -/
def set_setting (now : Nat) (token : String) (key : String) (v : SettingVal) (db : DB) :
    SetSettingResponse :=
  match verify_token now token db with
  | (none, _, _) => SetSettingResponse.unauthorized
  | (some _, db1, _) =>
    SetSettingResponse.ok { db1 with settings := settingsInsert db1.settings key v } key v

/-! ### Sync Engine (src/server.py lines 735-812)

`sync_data` builds a merge map (`merged_orders`, a Python dict) keyed by
order id: seeded from the server Orders scoped to the caller (the scoping
filter is skipped for admins), then folded over the client Orders.  The
counter threaded through the fold counts the client Orders without an id,
so `freshIds n` stands for the uuid generated for the n-th such Order. -/

/-- One iteration of the client-order merge loop. -/
def syncStep (user : User) (freshIds : Nat → String)
    (acc : List (String × Order) × Nat) (co : ClientOrder) :
    List (String × Order) × Nat :=
  let (m, n) := acc
  match co.id with
  | none =>
    -- new order from the client: fresh id, stamp ownership, syncVersion 1
    let oid := freshIds n
    let o := { co.toOrder oid with
                 userId := user.id, userEmail := user.email, syncVersion := 1 }
    (alistInsert m oid o, n + 1)
  | some oid =>
    match alistGet m oid with
    | some so =>
      -- id already in the map: last-writer-wins by strict version comparison
      if so.syncVersion < co.syncVersion then (alistInsert m oid (co.toOrder oid), n)
      else (m, n)
    | none =>
      -- on the client but not on the server: adopt, stamping ownership only
      let o := { co.toOrder oid with userId := user.id, userEmail := user.email }
      (alistInsert m oid o, n)

/-- The merge map seeded from the scoped server Orders. -/
def syncSeed (user : User) (dbOrders : List Order) : List (String × Order) :=
  let server_orders :=
    if user.isAdmin then dbOrders
    else dbOrders.filter (fun o => decide (o.userId = user.id))
  server_orders.foldl (fun m o => alistInsert m o.id o) []

/-- POST /api/sync body after authentication.  Returns the persisted order
collection (the orders list after the save) and the merged list returned to
the client (`list(merged_orders.values())`). -/
def sync_data (user : User) (freshIds : Nat → String)
    (dbOrders : List Order) (clientOrders : List ClientOrder) :
    List Order × List Order :=
  let merged := (clientOrders.foldl (syncStep user freshIds) (syncSeed user dbOrders, 0)).1
  let userOrderIds := merged.map Prod.fst
  let kept := dbOrders.filter
    (fun o => (o.userId != user.id) || !(userOrderIds.contains o.id))
  (kept ++ merged.map Prod.snd, merged.map Prod.snd)

/-! ### Concrete fixtures used by witnesses and counterexamples -/

def exUser1 : User :=
  { id := "u1", email := "u1@example.com", password := hash_password "pw1"
    isAdmin := false, createdAt := 0, lastSync := 0, lastActivity := 0, devices := [] }

def exAdmin : User :=
  { id := "a1", email := "12abc202@gmail.com", password := hash_password "Abu_1610"
    isAdmin := true, createdAt := 0, lastSync := 0, lastActivity := 0, devices := [] }

def exOrder1 : Order :=
  { id := "o1", userId := "u1", userEmail := "u1@example.com"
    fileName := "flightA", uploadDate := "01.01.2024"
    data := [["h"], ["r1"]], createdAt := 10, updatedAt := 10, syncVersion := 5 }

def exOrderOther : Order :=
  { id := "o9", userId := "u2", userEmail := "u2@example.com"
    fileName := "flightB", uploadDate := "02.01.2024"
    data := [["h"], ["r9"]], createdAt := 20, updatedAt := 20, syncVersion := 3 }

def exFresh : Nat → String := fun _ => "F0"

/-- Well-formedness of a merge map: keys are unique and every stored Order
carries its own key as id. -/
def alistWF (m : List (String × Order)) : Prop :=
  (m.map Prod.fst).Nodup ∧ ∀ p ∈ m, p.2.id = p.1

def exClient1 : ClientOrder :=
  { id := some "o1", userId := "u1", userEmail := "u1@example.com"
    fileName := "flightA", uploadDate := "01.01.2024"
    data := [["h"], ["r1v7"]], createdAt := 10, updatedAt := 30, syncVersion := 7 }

/-- The patched-and-bumped Order written back by `update_order` on success
(the let-bound `o3` of the model, as a standalone definition). -/
def bumpPatched (now : Nat) (o : Order) (p : Patch) : Order :=
  { applyPatch o p with updatedAt := now, syncVersion := (applyPatch o p).syncVersion + 1 }

def exDB : DB :=
  { users := [exUser1, exAdmin]
    orders := [exOrder1, exOrderOther]
    settings := setting_defaults
    sessions := [] }

def exDB1 : DB :=
  { users := [exUser1], orders := [exOrder1], settings := setting_defaults, sessions := [] }

/-- A patch whose JSON body itself contains a `syncVersion` key. -/
def exPatchLow : Patch := { syncVersion := some 0 }

/-- A patch that does not touch `syncVersion`. -/
def exPatchData : Patch := { data := some [["x"]] }

def updateResultVersion : UpdateResult → Option Nat
  | UpdateResult.ok _ o => some o.syncVersion
  | _ => none

def exOrder1Patched : Order :=
  { exOrder1 with data := [["x"]], updatedAt := 100, syncVersion := 6 }

def exDB1Patched : DB := { exDB1 with orders := [exOrder1Patched] }

def exCacheRef : DBRef := { usersA := 0, ordersA := 1, sessionsA := 2, settingsA := 3 }

def exHeap : Heap :=
  { userCells := fun _ => []
    orderCells := fun a => if a = 1 then [exOrder1] else []
    sessionCells := fun _ => []
    settingCells := fun _ => [] }

def exDBEmpty : DB :=
  { users := [exUser1], orders := [], settings := setting_defaults, sessions := [] }

def exSession : Session := { token := "tok1", userId := "u1", deviceId := none, created := 0 }

def exDBSess : DB :=
  { users := [exUser1], orders := [], settings := setting_defaults, sessions := [exSession] }

/-! ### Lemmas about the merge-map association list -/

theorem alistGet_insert_self (m : List (String × Order)) (k : String) (v : Order) :
    alistGet (alistInsert m k v) k = some v := by
  induction m with
  | nil => simp [alistInsert, alistGet]
  | cons p rest ih =>
    by_cases h : p.1 = k
    · simp [alistInsert, h, alistGet]
    · simp [alistInsert, h, alistGet, ih]

theorem alistGet_insert_ne (m : List (String × Order)) (k k2 : String) (v : Order)
    (h : k2 ≠ k) : alistGet (alistInsert m k v) k2 = alistGet m k2 := by
  have hk2 : ¬ (k = k2) := fun e => h e.symm
  induction m with
  | nil => simp [alistInsert, alistGet, hk2]
  | cons p rest ih =>
    by_cases hp : p.1 = k
    · have hp2 : ¬ (p.1 = k2) := by rw [hp]; exact hk2
      simp [alistInsert, hp, alistGet, hk2, hp2]
    · by_cases hq : p.1 = k2
      · simp [alistInsert, hp, alistGet, hq, h]
      · simp [alistInsert, hp, alistGet, hq, ih]

theorem mem_alistInsert (m : List (String × Order)) (k : String) (v : Order)
    (p : String × Order) (h : p ∈ alistInsert m k v) : p = (k, v) ∨ p ∈ m := by
  induction m with
  | nil => simpa [alistInsert] using h
  | cons q rest ih =>
    by_cases hq : q.1 = k
    · simp [alistInsert, hq] at h
      rcases h with h | h
      · exact Or.inl h
      · exact Or.inr (List.mem_cons_of_mem _ h)
    · simp [alistInsert, hq] at h
      rcases h with h | h
      · exact Or.inr (by simp [h])
      · rcases ih h with h2 | h2
        · exact Or.inl h2
        · exact Or.inr (List.mem_cons_of_mem _ h2)

theorem alistGet_foldl_of_not_mem (L : List Order) (m : List (String × Order)) (k : String)
    (h : ∀ t ∈ L, t.id ≠ k) :
    alistGet (L.foldl (fun m o => alistInsert m o.id o) m) k = alistGet m k := by
  induction L generalizing m with
  | nil => rfl
  | cons o rest ih =>
    have ho : o.id ≠ k := h o (List.mem_cons_self _ _)
    have hrest : ∀ t ∈ rest, t.id ≠ k := fun t ht => h t (List.mem_cons_of_mem _ ht)
    calc alistGet ((o :: rest).foldl (fun m o => alistInsert m o.id o) m) k
        = alistGet (rest.foldl (fun m o => alistInsert m o.id o) (alistInsert m o.id o)) k := rfl
      _ = alistGet (alistInsert m o.id o) k := ih _ hrest
      _ = alistGet m k := alistGet_insert_ne _ _ _ _ (fun e => ho e.symm)

theorem alistGet_foldl_seed (L : List Order) (m : List (String × Order)) (s : Order)
    (hmem : s ∈ L) (hpw : L.Pairwise (fun a b => a.id ≠ b.id)) :
    alistGet (L.foldl (fun m o => alistInsert m o.id o) m) s.id = some s := by
  induction L generalizing m with
  | nil => cases hmem
  | cons o rest ih =>
    rw [List.pairwise_cons] at hpw
    rcases List.mem_cons.mp hmem with h | h
    · subst h
      calc alistGet ((s :: rest).foldl (fun m o => alistInsert m o.id o) m) s.id
          = alistGet (rest.foldl (fun m o => alistInsert m o.id o) (alistInsert m s.id s)) s.id :=
            rfl
        _ = alistGet (alistInsert m s.id s) s.id :=
            alistGet_foldl_of_not_mem _ _ _ (fun t ht e => hpw.1 t ht e.symm)
        _ = some s := alistGet_insert_self _ _ _
    · exact ih _ h hpw.2

theorem alistWF_nil : alistWF [] := by
  constructor
  · exact List.nodup_nil
  · intro p hp; cases hp

theorem keys_alistInsert_subset (m : List (String × Order)) (k : String) (v : Order)
    (k2 : String) (h : k2 ∈ (alistInsert m k v).map Prod.fst) :
    k2 = k ∨ k2 ∈ m.map Prod.fst := by
  simp only [List.mem_map] at h
  rcases h with ⟨p, hp, he⟩
  rcases mem_alistInsert _ _ _ _ hp with h2 | h2
  · left; rw [← he, h2]
  · right; exact List.mem_map.mpr ⟨p, h2, he⟩

theorem alistWF_insert (m : List (String × Order)) (k : String) (v : Order)
    (hwf : alistWF m) (hv : v.id = k) : alistWF (alistInsert m k v) := by
  induction m with
  | nil =>
    constructor
    · simp [alistInsert]
    · intro p hp; simp [alistInsert] at hp; simp [hp, hv]
  | cons p rest ih =>
    have hk : (p.1 :: rest.map Prod.fst).Nodup := by
      simpa using hwf.1
    have hwfr : alistWF rest :=
      ⟨(List.nodup_cons.mp hk).2, fun q hq => hwf.2 q (List.mem_cons_of_mem _ hq)⟩
    by_cases hp : p.1 = k
    · have heq : alistInsert (p :: rest) k v = (k, v) :: rest := by
        simp [alistInsert, hp]
      rw [heq]
      constructor
      · simp only [List.map_cons, List.nodup_cons]
        refine ⟨?_, (List.nodup_cons.mp hk).2⟩
        rw [← hp]
        exact (List.nodup_cons.mp hk).1
      · intro q hq
        rcases List.mem_cons.mp hq with h | h
        · simp [h, hv]
        · exact hwf.2 q (List.mem_cons_of_mem _ h)
    · have heq : alistInsert (p :: rest) k v = p :: alistInsert rest k v := by
        simp [alistInsert, hp]
      rw [heq]
      have hihwf := ih hwfr
      constructor
      · simp only [List.map_cons, List.nodup_cons]
        refine ⟨?_, hihwf.1⟩
        intro hcon
        rcases keys_alistInsert_subset _ _ _ _ hcon with h | h
        · exact hp h
        · exact (List.nodup_cons.mp hk).1 h
      · intro q hq
        rcases List.mem_cons.mp hq with h | h
        · exact hwf.2 q (by simp [h])
        · rcases mem_alistInsert _ _ _ _ h with h2 | h2
          · simp [h2, hv]
          · exact hwf.2 q (List.mem_cons_of_mem _ h2)

theorem alistWF_foldl_seed (L : List Order) (m : List (String × Order)) (hwf : alistWF m) :
    alistWF (L.foldl (fun m o => alistInsert m o.id o) m) := by
  induction L generalizing m with
  | nil => exact hwf
  | cons o rest ih => exact ih _ (alistWF_insert _ _ _ hwf rfl)

/-! ### Lemmas about the sync merge fold -/

theorem syncStep_get_preserve (user : User) (freshIds : Nat → String)
    (m : List (String × Order)) (n : Nat) (co : ClientOrder) (k : String)
    (hfresh : ∀ i, freshIds i ≠ k) (hco : co.id ≠ some k) :
    alistGet (syncStep user freshIds (m, n) co).1 k = alistGet m k := by
  match hid : co.id with
  | none =>
    simp only [syncStep, hid]
    exact alistGet_insert_ne _ _ _ _ (fun e => hfresh n e.symm)
  | some oid =>
    have hoid : k ≠ oid := by
      intro e; exact hco (by rw [hid, e])
    simp only [syncStep, hid]
    match hget : alistGet m oid with
    | some so =>
      simp only [hget]
      by_cases hv : so.syncVersion < co.syncVersion
      · simp only [if_pos hv]
        exact alistGet_insert_ne _ _ _ _ hoid
      · simp only [if_neg hv]
    | none =>
      simp only [hget]
      exact alistGet_insert_ne _ _ _ _ hoid

theorem syncFold_get_preserve (user : User) (freshIds : Nat → String)
    (cos : List ClientOrder) (acc : List (String × Order) × Nat) (k : String)
    (hfresh : ∀ i, freshIds i ≠ k) (hcos : ∀ co ∈ cos, co.id ≠ some k) :
    alistGet (cos.foldl (syncStep user freshIds) acc).1 k = alistGet acc.1 k := by
  induction cos generalizing acc with
  | nil => rfl
  | cons co rest ih =>
    have h1 : co.id ≠ some k := hcos co (List.mem_cons_self _ _)
    have h2 : ∀ c ∈ rest, c.id ≠ some k := fun c hc => hcos c (List.mem_cons_of_mem _ hc)
    calc alistGet ((co :: rest).foldl (syncStep user freshIds) acc).1 k
        = alistGet (rest.foldl (syncStep user freshIds) (syncStep user freshIds acc co)).1 k :=
          rfl
      _ = alistGet (syncStep user freshIds acc co).1 k := ih _ h2
      _ = alistGet acc.1 k := by
          obtain ⟨m, n⟩ := acc
          exact syncStep_get_preserve user freshIds m n co k hfresh h1

theorem alistWF_syncStep (user : User) (freshIds : Nat → String)
    (m : List (String × Order)) (n : Nat) (co : ClientOrder)
    (hwf : alistWF m) : alistWF (syncStep user freshIds (m, n) co).1 := by
  match hid : co.id with
  | none =>
    simp only [syncStep, hid]
    exact alistWF_insert _ _ _ hwf rfl
  | some oid =>
    simp only [syncStep, hid]
    match hget : alistGet m oid with
    | some so =>
      simp only [hget]
      by_cases hv : so.syncVersion < co.syncVersion
      · simp only [if_pos hv]
        exact alistWF_insert _ _ _ hwf rfl
      · simp only [if_neg hv]; exact hwf
    | none =>
      simp only [hget]
      exact alistWF_insert _ _ _ hwf rfl

theorem alistWF_syncFold (user : User) (freshIds : Nat → String)
    (cos : List ClientOrder) (acc : List (String × Order) × Nat)
    (hwf : alistWF acc.1) : alistWF (cos.foldl (syncStep user freshIds) acc).1 := by
  induction cos generalizing acc with
  | nil => exact hwf
  | cons co rest ih =>
    have : alistWF (syncStep user freshIds acc co).1 := by
      obtain ⟨m, n⟩ := acc
      exact alistWF_syncStep user freshIds m n co hwf
    exact ih _ this

theorem alistGet_eq_none_iff (m : List (String × Order)) (k : String) :
    alistGet m k = none ↔ ∀ p ∈ m, p.1 ≠ k := by
  induction m with
  | nil => simp [alistGet]
  | cons p rest ih =>
    by_cases hp : p.1 = k
    · simp [alistGet, hp]
    · simp [alistGet, hp, ih]

theorem alistGet_eq_some_contains (m : List (String × Order)) (k : String) (v : Order)
    (h : alistGet m k = some v) : (m.map Prod.fst).contains k = true := by
  induction m with
  | nil => simp [alistGet] at h
  | cons p rest ih =>
    by_cases hp : p.1 = k
    · simp [hp]
    · simp only [alistGet, if_neg hp] at h
      have := ih h
      simp only [List.map_cons, List.contains_cons, this, Bool.or_true]

theorem alistGet_eq_some_mem (m : List (String × Order)) (k : String) (v : Order)
    (h : alistGet m k = some v) : (k, v) ∈ m := by
  induction m with
  | nil => simp [alistGet] at h
  | cons p rest ih =>
    by_cases hp : p.1 = k
    · simp only [alistGet, if_pos hp] at h
      cases h
      rw [← hp]
      exact List.mem_cons_self _ _
    · simp only [alistGet, if_neg hp] at h
      exact List.mem_cons_of_mem _ (ih h)

theorem find?_values (m : List (String × Order)) (k : String) (v : Order)
    (hwf : alistWF m) (h : alistGet m k = some v) :
    (m.map Prod.snd).find? (fun o => decide (o.id = k)) = some v := by
  induction m with
  | nil => simp [alistGet] at h
  | cons p rest ih =>
    have hid : p.2.id = p.1 := hwf.2 p (List.mem_cons_self _ _)
    have hwfr : alistWF rest := by
      refine ⟨?_, fun q hq => hwf.2 q (List.mem_cons_of_mem _ hq)⟩
      have := hwf.1
      simp only [List.map_cons, List.nodup_cons] at this
      exact this.2
    by_cases hp : p.1 = k
    · simp only [alistGet, if_pos hp] at h
      cases h
      simp [List.find?_cons, hid, hp]
    · simp only [alistGet, if_neg hp] at h
      have hne : ¬ (p.2.id = k) := by rw [hid]; exact hp
      simp [List.find?_cons, hne, ih hwfr h]

theorem countP_values_eq_one (m : List (String × Order)) (k : String) (v : Order)
    (hwf : alistWF m) (h : alistGet m k = some v) :
    (m.map Prod.snd).countP (fun o => decide (o = v)) = 1 := by
  induction m with
  | nil => simp [alistGet] at h
  | cons p rest ih =>
    have hid : p.2.id = p.1 := hwf.2 p (List.mem_cons_self _ _)
    have hnodup := hwf.1
    simp only [List.map_cons, List.nodup_cons] at hnodup
    have hwfr : alistWF rest := ⟨hnodup.2, fun q hq => hwf.2 q (List.mem_cons_of_mem _ hq)⟩
    by_cases hp : p.1 = k
    · simp only [alistGet, if_pos hp] at h
      cases h
      have hzero : (rest.map Prod.snd).countP (fun o => decide (o = p.2)) = 0 := by
        rw [List.countP_eq_zero]
        intro o ho
        simp only [decide_eq_true_eq]
        rcases List.mem_map.mp ho with ⟨q, hq, he⟩
        intro he2
        apply hnodup.1
        have : q.1 = p.1 := by
          rw [← hwf.2 q (List.mem_cons_of_mem _ hq), he, he2, hid]
        rw [← this]
        exact List.mem_map.mpr ⟨q, hq, rfl⟩
      simp [List.countP_cons, hzero]
    · simp only [alistGet, if_neg hp] at h
      have hvid : v.id = k := by
        have hmem := alistGet_eq_some_mem rest k v h
        exact hwf.2 (k, v) (List.mem_cons_of_mem _ hmem)
      have hne : ¬ (p.2 = v) := by
        intro e
        apply hp
        rw [← hid, e, hvid]
      simp [List.countP_cons, hne, ih hwfr h]

/-- C2 helper: the seeded merge map resolves the id of a caller-owned server
Order to that Order (for admins the scoping filter is skipped but the Order
is still seeded). -/
theorem syncSeed_get (user : User) (dbOrders : List Order) (s : Order)
    (hpw : dbOrders.Pairwise (fun a b => a.id ≠ b.id))
    (hs : s ∈ dbOrders) (hown : s.userId = user.id) :
    alistGet (syncSeed user dbOrders) s.id = some s := by
  unfold syncSeed
  by_cases hadm : user.isAdmin
  · simp only [if_pos hadm]
    exact alistGet_foldl_seed _ _ _ hs hpw
  · simp only [if_neg hadm]
    refine alistGet_foldl_seed _ _ _ ?_ (List.Pairwise.sublist (List.filter_sublist _) hpw)
    exact List.mem_filter.mpr ⟨hs, by simp [hown]⟩

theorem syncSeed_wf (user : User) (dbOrders : List Order) :
    alistWF (syncSeed user dbOrders) := by
  unfold syncSeed
  exact alistWF_foldl_seed _ _ alistWF_nil

theorem syncStep_get_match (user : User) (freshIds : Nat → String)
    (m : List (String × Order)) (n : Nat) (co : ClientOrder) (oid : String) (so : Order)
    (hco : co.id = some oid) (hget : alistGet m oid = some so) :
    alistGet (syncStep user freshIds (m, n) co).1 oid
      = some (if so.syncVersion < co.syncVersion then co.toOrder oid else so) := by
  simp only [syncStep, hco, hget]
  by_cases hv : so.syncVersion < co.syncVersion
  · simp only [if_pos hv]
    exact alistGet_insert_self _ _ _
  · simp only [if_neg hv]
    exact hget

/-- C2: in a sync call by an authenticated user, a client Order whose id
matches a caller-owned server Order wins the merge exactly when its
`syncVersion` is strictly greater than the server copy; on an equal or
lower version the server copy is kept.  The merged result returned for
that id is the client Order in the first case and the server Order in the
second. -/
theorem sync_merge_version_dominance
    (user : User) (freshIds : Nat → String) (dbOrders : List Order)
    (pre post : List ClientOrder) (s : Order) (co : ClientOrder)
    (hpw : dbOrders.Pairwise (fun a b => a.id ≠ b.id))
    (hs : s ∈ dbOrders) (hown : s.userId = user.id)
    (hco : co.id = some s.id)
    (hfresh : ∀ i, freshIds i ≠ s.id)
    (hpre : ∀ c ∈ pre, c.id ≠ some s.id)
    (hpost : ∀ c ∈ post, c.id ≠ some s.id) :
    (sync_data user freshIds dbOrders (pre ++ co :: post)).2.find?
        (fun o => decide (o.id = s.id))
      = some (if s.syncVersion < co.syncVersion then co.toOrder s.id else s) := by
  have hseed : alistGet (syncSeed user dbOrders) s.id = some s :=
    syncSeed_get user dbOrders s hpw hs hown
  have hpreget :
      alistGet (pre.foldl (syncStep user freshIds) (syncSeed user dbOrders, 0)).1 s.id
        = some s := by
    rw [syncFold_get_preserve user freshIds pre _ s.id hfresh hpre]
    exact hseed
  have hstep :
      alistGet (syncStep user freshIds
          (pre.foldl (syncStep user freshIds) (syncSeed user dbOrders, 0)) co).1 s.id
        = some (if s.syncVersion < co.syncVersion then co.toOrder s.id else s) :=
    syncStep_get_match user freshIds _ _ co s.id s hco hpreget
  have hfinal :
      alistGet (((pre ++ co :: post).foldl (syncStep user freshIds)
          (syncSeed user dbOrders, 0)).1) s.id
        = some (if s.syncVersion < co.syncVersion then co.toOrder s.id else s) := by
    rw [List.foldl_append, List.foldl_cons]
    rw [syncFold_get_preserve user freshIds post _ s.id hfresh hpost]
    exact hstep
  have hwf : alistWF (((pre ++ co :: post).foldl (syncStep user freshIds)
      (syncSeed user dbOrders, 0)).1) :=
    alistWF_syncFold user freshIds _ _ (syncSeed_wf user dbOrders)
  simp only [sync_data]
  exact find?_values _ _ _ hwf hfinal

/-- C2 witness: a concrete client copy of `o1` at version 7 beats the
server copy at version 5. -/
theorem sync_merge_version_dominance_witness :
    (sync_data exUser1 exFresh [exOrder1] [exClient1]).2.find?
        (fun o => decide (o.id = "o1"))
      = some (exClient1.toOrder "o1") := by
  have h := sync_merge_version_dominance exUser1 exFresh [exOrder1] [] [] exOrder1 exClient1
    (by simp) (by simp) (by rfl) (by rfl)
    (by intro i; show ("F0" : String) ≠ "o1"; decide) (by simp) (by simp)
  simpa [exOrder1, exClient1] using h

theorem pairwise_id_inj (L : List Order) (hpw : L.Pairwise (fun a b => a.id ≠ b.id))
    (a b : Order) (ha : a ∈ L) (hb : b ∈ L) (he : a.id = b.id) : a = b := by
  induction L with
  | nil => cases ha
  | cons o rest ih =>
    rw [List.pairwise_cons] at hpw
    rcases List.mem_cons.mp ha with h1 | h1 <;> rcases List.mem_cons.mp hb with h2 | h2
    · rw [h1, h2]
    · exact absurd he (h1 ▸ hpw.1 b h2)
    · exact absurd he.symm (h2 ▸ hpw.1 a h1)
    · exact ih hpw.2 h1 h2

theorem countP_self_of_pairwise (L : List Order)
    (hpw : L.Pairwise (fun a b => a.id ≠ b.id)) (t : Order) (ht : t ∈ L) :
    L.countP (fun o => decide (o = t)) = 1 := by
  induction L with
  | nil => cases ht
  | cons o rest ih =>
    rw [List.pairwise_cons] at hpw
    by_cases h : o = t
    · have hzero : rest.countP (fun o => decide (o = t)) = 0 := by
        rw [List.countP_eq_zero]
        intro r hr
        simp only [decide_eq_true_eq]
        intro he
        exact hpw.1 r hr (by rw [h, he])
      simp [List.countP_cons, h, hzero]
    · have ht2 : t ∈ rest := by
        rcases List.mem_cons.mp ht with h2 | h2
        · exact absurd h2.symm h
        · exact h2
      simp [List.countP_cons, h, ih hpw.2 ht2]

theorem mem_seed_val (L : List Order) (m : List (String × Order)) (p : String × Order)
    (h : p ∈ L.foldl (fun m o => alistInsert m o.id o) m) : p.2 ∈ L ∨ p ∈ m := by
  induction L generalizing m with
  | nil => exact Or.inr h
  | cons o rest ih =>
    rcases ih _ h with h2 | h2
    · exact Or.inl (List.mem_cons_of_mem _ h2)
    · rcases mem_alistInsert _ _ _ _ h2 with h3 | h3
      · left
        rw [h3]
        exact List.mem_cons_self _ _
      · exact Or.inr h3

/-- C3 counterexample: a non-admin user `u1` owns server Order `o1`; the
client submits an empty order list, omitting `o1`.  After the sync the
persisted collection still contains `o1` (it is seeded into the merge map
from the server side and written back), so the claimed drop does not
happen. -/
theorem sync_omitted_order_counterexample :
    exUser1.isAdmin = false
    ∧ exOrder1 ∈ [exOrder1]
    ∧ exOrder1.userId = exUser1.id
    ∧ (sync_data exUser1 exFresh [exOrder1] []).1 = [exOrder1] := by
  refine ⟨rfl, List.mem_cons_self _ _, rfl, ?_⟩
  decide

/-- C3 amended: for a non-admin sync, a server Order owned by the caller
whose id appears in none of the client-submitted Orders is NOT dropped: it
remains in the persisted collection exactly once, unchanged (the merge map
is seeded from all scoped server Orders, so the omitted Order is written
back). -/
theorem sync_omitted_order_preserved
    (user : User) (freshIds : Nat → String) (dbOrders : List Order)
    (cos : List ClientOrder) (s : Order)
    (_hadm : user.isAdmin = false)
    (hpw : dbOrders.Pairwise (fun a b => a.id ≠ b.id))
    (hs : s ∈ dbOrders) (hown : s.userId = user.id)
    (hfresh : ∀ i, freshIds i ≠ s.id)
    (hcos : ∀ c ∈ cos, c.id ≠ some s.id) :
    (sync_data user freshIds dbOrders cos).1.countP (fun o => decide (o = s)) = 1 := by
  have hfinal :
      alistGet ((cos.foldl (syncStep user freshIds) (syncSeed user dbOrders, 0)).1) s.id
        = some s := by
    rw [syncFold_get_preserve user freshIds cos _ s.id hfresh hcos]
    exact syncSeed_get user dbOrders s hpw hs hown
  have hwf := alistWF_syncFold user freshIds cos (syncSeed user dbOrders, 0)
    (syncSeed_wf user dbOrders)
  have hvals := countP_values_eq_one _ _ _ hwf hfinal
  have hcontains := alistGet_eq_some_contains _ _ _ hfinal
  simp only [sync_data, List.countP_append]
  rw [hvals]
  have hkept :
      (dbOrders.filter (fun o => (o.userId != user.id)
          || !(((cos.foldl (syncStep user freshIds)
                (syncSeed user dbOrders, 0)).1.map Prod.fst).contains o.id))).countP
        (fun o => decide (o = s)) = 0 := by
    rw [List.countP_eq_zero]
    intro o ho
    simp only [decide_eq_true_eq]
    intro he
    subst he
    have hq := (List.mem_filter.mp ho).2
    rw [hown] at hq
    simp only [bne_self_eq_false, Bool.false_or, Bool.not_eq_true'] at hq
    rw [hq] at hcontains
    exact Bool.noConfusion hcontains
  rw [hkept]

/-- C3 amended witness: the concrete omitted-order scenario keeps `o1`
exactly once. -/
theorem sync_omitted_order_preserved_witness :
    (sync_data exUser1 exFresh [exOrder1] []).1.countP
        (fun o => decide (o = exOrder1)) = 1 :=
  sync_omitted_order_preserved exUser1 exFresh [exOrder1] [] exOrder1 rfl
    (by simp) (by simp) rfl (by intro i; show ("F0" : String) ≠ "o1"; decide) (by simp)

/-- C4 counterexample: an admin sync with an empty client payload over a
store holding one Order owned by another user (`u2`).  The merge map is
seeded with that foreign Order (the scoping filter is skipped for admins),
and after the sync the persisted collection contains the foreign Order
twice, not exactly once. -/
theorem sync_admin_scope_counterexample :
    exAdmin.isAdmin = true
    ∧ exOrderOther.userId ≠ exAdmin.id
    ∧ (syncSeed exAdmin [exOrderOther]).map Prod.snd = [exOrderOther]
    ∧ (sync_data exAdmin exFresh [exOrderOther] []).1 = [exOrderOther, exOrderOther] := by
  refine ⟨rfl, by decide, ?_, ?_⟩ <;> decide

/-- C4 amended: for a NON-admin caller the claim holds: the merge map is
seeded only from Orders owned by the caller, and an Order owned by another
user survives the sync exactly once, unchanged, provided the client payload
and the generated fresh ids do not reuse its id.  (For an admin caller the
claim fails: the seed is unscoped and foreign Orders are duplicated, see
the counterexample.) -/
theorem sync_nonadmin_preserves_other_users
    (user : User) (freshIds : Nat → String) (dbOrders : List Order)
    (cos : List ClientOrder) (t : Order)
    (hadm : user.isAdmin = false)
    (hpw : dbOrders.Pairwise (fun a b => a.id ≠ b.id))
    (ht : t ∈ dbOrders) (hother : t.userId ≠ user.id)
    (hfresh : ∀ i, freshIds i ≠ t.id)
    (hcos : ∀ c ∈ cos, c.id ≠ some t.id) :
    (∀ p ∈ syncSeed user dbOrders, p.2.userId = user.id)
    ∧ (sync_data user freshIds dbOrders cos).1.countP (fun o => decide (o = t)) = 1 := by
  have hseedscope : ∀ p ∈ syncSeed user dbOrders, p.2.userId = user.id := by
    intro p hp
    unfold syncSeed at hp
    rw [if_neg (fun h => by rw [hadm] at h; exact Bool.noConfusion h)] at hp
    rcases mem_seed_val _ _ _ hp with h | h
    · have := (List.mem_filter.mp h).2
      simpa using this
    · cases h
  refine ⟨hseedscope, ?_⟩
  -- the final merge map never holds key t.id
  have hseednone : alistGet (syncSeed user dbOrders) t.id = none := by
    rw [alistGet_eq_none_iff]
    intro p hp he
    have hid : p.2.id = p.1 := (syncSeed_wf user dbOrders).2 p hp
    unfold syncSeed at hp
    rw [if_neg (fun h => by rw [hadm] at h; exact Bool.noConfusion h)] at hp
    rcases mem_seed_val _ _ _ hp with h | h
    · have hmemdb := (List.mem_filter.mp h).1
      have hownp : p.2.userId = user.id := by
        have := (List.mem_filter.mp h).2
        simpa using this
      have : p.2 = t := pairwise_id_inj dbOrders hpw p.2 t hmemdb ht (by rw [hid, he])
      exact hother (by rw [← this, hownp])
    · cases h
  have hfinalnone :
      alistGet ((cos.foldl (syncStep user freshIds) (syncSeed user dbOrders, 0)).1) t.id
        = none := by
    rw [syncFold_get_preserve user freshIds cos _ t.id hfresh hcos]
    exact hseednone
  have hwf := alistWF_syncFold user freshIds cos (syncSeed user dbOrders, 0)
    (syncSeed_wf user dbOrders)
  -- no value of the final map can equal t
  have hvals :
      ((cos.foldl (syncStep user freshIds) (syncSeed user dbOrders, 0)).1.map
        Prod.snd).countP (fun o => decide (o = t)) = 0 := by
    rw [List.countP_eq_zero]
    intro o ho
    simp only [decide_eq_true_eq]
    rcases List.mem_map.mp ho with ⟨p, hp, he⟩
    intro he2
    have hid : p.2.id = p.1 := hwf.2 p hp
    have : p.1 ≠ t.id := (alistGet_eq_none_iff _ _).mp hfinalnone p hp
    apply this
    rw [← hid, he, he2]
  -- the filter keeps every occurrence of t
  have hkept :
      (dbOrders.filter (fun o => (o.userId != user.id)
          || !(((cos.foldl (syncStep user freshIds)
                (syncSeed user dbOrders, 0)).1.map Prod.fst).contains o.id))).countP
        (fun o => decide (o = t))
        = dbOrders.countP (fun o => decide (o = t)) := by
    rw [List.countP_filter]
    refine List.countP_congr ?_
    intro o _
    constructor
    · intro h
      simp only [Bool.and_eq_true, decide_eq_true_eq] at h
      simp [h.1]
    · intro h
      simp only [decide_eq_true_eq] at h
      subst h
      simp only [Bool.and_eq_true, decide_eq_true_eq]
      exact ⟨by simp, by simp [hother]⟩
  simp only [sync_data, List.countP_append]
  rw [hvals, hkept, countP_self_of_pairwise dbOrders hpw t ht]

/-- C9: the order listing returns exactly the Orders owned by the caller
for a non-admin, and every Order in the store for an admin. -/
theorem get_orders_scoping (user : User) (db : DB) :
    (user.isAdmin = false →
      ∀ o, o ∈ get_orders user db ↔ o ∈ db.orders ∧ o.userId = user.id)
    ∧ (user.isAdmin = true → get_orders user db = db.orders) := by
  constructor
  · intro hadm o
    simp [get_orders, hadm, List.mem_filter]
  · intro hadm
    simp [get_orders, hadm]

/-- C9 witness: concrete non-admin and admin listings. -/
theorem get_orders_scoping_witness :
    (exOrder1 ∈ get_orders exUser1 exDB ↔
        exOrder1 ∈ exDB.orders ∧ exOrder1.userId = exUser1.id)
    ∧ get_orders exAdmin exDB = exDB.orders :=
  ⟨(get_orders_scoping exUser1 exDB).1 rfl exOrder1,
   (get_orders_scoping exAdmin exDB).2 rfl⟩

/-- C10: reading a setting never checks authentication (the route reads no
token), returning the stored value when the key is present, the compiled-in
default for the three known keys, and NotFound for any other absent key;
writing a setting is Unauthorized whenever the token resolves to no user. -/
theorem get_setting_no_auth (token : String) (now : Nat) (key : String) (db : DB) :
    get_setting token key db ≠ SettingsResponse.unauthorized
    ∧ (∀ v, settingsGet db.settings key = some v →
        get_setting token key db = SettingsResponse.ok v)
    ∧ (settingsGet db.settings key = none →
        ∀ v, settingsGet setting_defaults key = some v →
          get_setting token key db = SettingsResponse.ok v)
    ∧ (settingsGet db.settings key = none → settingsGet setting_defaults key = none →
        get_setting token key db = SettingsResponse.notFound)
    ∧ (key ≠ "kgz_rate" → key ≠ "company_name" → key ≠ "company_phone" →
        settingsGet setting_defaults key = none)
    ∧ (∀ v, (verify_token now token db).1 = none →
        set_setting now token key v db = SetSettingResponse.unauthorized) := by
  refine ⟨?_, ?_, ?_, ?_, ?_, ?_⟩
  · cases hm : settingsGet db.settings key with
    | some v => simp [get_setting, hm]
    | none =>
      cases hm2 : settingsGet setting_defaults key with
      | some v => simp [get_setting, hm, hm2]
      | none => simp [get_setting, hm, hm2]
  · intro v hv
    simp [get_setting, hv]
  · intro h v hv
    simp [get_setting, h, hv]
  · intro h h2
    simp [get_setting, h, h2]
  · intro h1 h2 h3
    have g1 : ¬ ("kgz_rate" = key) := fun e => h1 e.symm
    have g2 : ¬ ("company_name" = key) := fun e => h2 e.symm
    have g3 : ¬ ("company_phone" = key) := fun e => h3 e.symm
    simp [settingsGet, setting_defaults, g1, g2, g3]
  · intro v hv
    unfold set_setting
    rcases hval : verify_token now token db with ⟨u, db1, saved⟩
    rcases u with _ | u2
    · rfl
    · rw [hval] at hv
      simp at hv

/-- C10 witness: an unauthenticated read of `kgz_rate` succeeds with the
default, and an unauthenticated write is rejected. -/
theorem get_setting_no_auth_witness :
    get_setting "bad-token" "kgz_rate" exDB ≠ SettingsResponse.unauthorized
    ∧ get_setting "bad-token" "kgz_rate" exDB = SettingsResponse.ok (SettingVal.num kgzRateSeed)
    ∧ set_setting 0 "bad-token" "kgz_rate" (SettingVal.num 90) exDB
        = SetSettingResponse.unauthorized := by
  refine ⟨(get_setting_no_auth "bad-token" 0 "kgz_rate" exDB).1, ?_, ?_⟩
  · exact (get_setting_no_auth "bad-token" 0 "kgz_rate" exDB).2.1 _ rfl
  · exact (get_setting_no_auth "bad-token" 0 "kgz_rate" exDB).2.2.2.2.2 _ rfl

theorem store_fuel_corrupt_none (adminId : String) (now : Nat) :
    ∀ (fuel : Nat) (flag : Bool) (s : StoreState),
      s.file = FileContent.corrupt → s.cache = none →
      store_fuel adminId now fuel flag s = none := by
  intro fuel
  induction fuel with
  | zero => intro flag s _ _; cases flag <;> rfl
  | succ n ih =>
    intro flag s hfile hcache
    cases flag
    · simp only [store_fuel, hfile]
      exact ih true s hfile hcache
    · simp only [store_fuel, hcache, hfile]
      exact ih false s hfile hcache

/-- C1 (refuted, code bug): on a store whose backing file exists but holds
unparsable JSON and whose in-memory cache is empty, `load_db` does NOT
terminate with a freshly seeded default Snapshot: the parse error falls
into `init_db`, which seeds only when the file is absent and otherwise
calls `load_db` again, so the two functions recurse into each other
forever (for every fuel bound the recursion is still running).  The
seeding fallback works only when the file is missing, as the second
conjunct shows. -/
theorem load_db_corrupt_diverges (adminId : String) (now : Nat) :
    (∀ (fuel : Nat) (fresh : Bool),
      load_db_fuel adminId now fuel
        { file := FileContent.corrupt, cache := none, cacheFresh := fresh } = none)
    ∧ load_db_fuel adminId now 3
        { file := FileContent.missing, cache := none, cacheFresh := false }
      = some (seedDB adminId now,
          { file := FileContent.good (seedDB adminId now)
            cache := some (seedDB adminId now)
            cacheFresh := true }) := by
  constructor
  · intro fuel fresh
    exact store_fuel_corrupt_none adminId now fuel true _ rfl rfl
  · rfl

/-- C5 counterexample: `o1` sits at `syncVersion = 5`; a PUT whose patch
body contains `syncVersion: 0` makes `update_order` store version
`0 + 1 = 1`, which is NOT strictly greater than 5 — `order.update(data)`
lets the patch overwrite the counter before the bump. -/
theorem update_syncVersion_counterexample :
    exOrder1.syncVersion = 5
    ∧ updateResultVersion (update_order 100 exUser1 "o1" exPatchLow exDB1) = some 1
    ∧ ¬ (5 < 1) := by
  refine ⟨rfl, ?_, by decide⟩
  decide

theorem createDedup_none_forall (now : Nat) (fn uid : String) (payload : List (List String))
    (l : List Order) (h : createDedup now fn uid payload l = none) :
    ∀ o ∈ l, ¬ (o.fileName = fn ∧ o.userId = uid) := by
  induction l with
  | nil => intro o ho; cases ho
  | cons x rest ih =>
    by_cases hx : x.fileName = fn ∧ x.userId = uid
    · simp only [createDedup, if_pos hx] at h
      cases h
    · simp only [createDedup, if_neg hx] at h
      cases hm : createDedup now fn uid payload rest with
      | some pr =>
        obtain ⟨l0, r0⟩ := pr
        rw [hm] at h
        exact absurd h (by simp)
      | none =>
        intro o ho
        rcases List.mem_cons.mp ho with h1 | h1
        · rw [h1]; exact hx
        · exact ih hm o h1

theorem createDedup_append_found (now : Nat) (fn uid : String)
    (payload : List (List String)) (post : List Order) (o0 : Order)
    (ho : o0.fileName = fn ∧ o0.userId = uid) :
    ∀ pre : List Order, (∀ o ∈ pre, ¬ (o.fileName = fn ∧ o.userId = uid)) →
    createDedup now fn uid payload (pre ++ o0 :: post)
      = some (pre ++ reuploadBump now payload o0 :: post, reuploadBump now payload o0) := by
  intro pre
  induction pre with
  | nil =>
    intro _
    simp [createDedup, ho]
  | cons x rest ih =>
    intro hpre
    have hx : ¬ (x.fileName = fn ∧ x.userId = uid) := hpre x (List.mem_cons_self _ _)
    have hrest := ih (fun o h => hpre o (List.mem_cons_of_mem _ h))
    simp only [List.cons_append, createDedup, if_neg hx, List.append_eq, hrest]

theorem createDedup_some_decomp (now : Nat) (fn uid : String)
    (payload : List (List String)) :
    ∀ (l l2 : List Order) (o2 : Order),
    createDedup now fn uid payload l = some (l2, o2) →
    ∃ pre o0 post, l = pre ++ o0 :: post
      ∧ (∀ o ∈ pre, ¬ (o.fileName = fn ∧ o.userId = uid))
      ∧ (o0.fileName = fn ∧ o0.userId = uid)
      ∧ o2 = reuploadBump now payload o0
      ∧ l2 = pre ++ o2 :: post := by
  intro l
  induction l with
  | nil => intro l2 o2 h; cases h
  | cons x rest ih =>
    intro l2 o2 h
    by_cases hx : x.fileName = fn ∧ x.userId = uid
    · simp only [createDedup, if_pos hx, Option.some.injEq, Prod.mk.injEq] at h
      refine ⟨[], x, rest, by simp, by simp, hx, h.2.symm, ?_⟩
      simp only [List.nil_append]
      rw [← h.1, h.2]
    · simp only [createDedup, if_neg hx] at h
      cases hm : createDedup now fn uid payload rest with
      | none =>
        rw [hm] at h
        exact absurd h (by simp)
      | some pr =>
        obtain ⟨l3, r3⟩ := pr
        rw [hm] at h
        simp only [Option.some.injEq, Prod.mk.injEq] at h
        rcases ih l3 r3 hm with ⟨pre, o0, post, hl, hpre, ho, hr, hl3⟩
        refine ⟨x :: pre, o0, post, ?_, ?_, ho, by rw [← h.2, hr], ?_⟩
        · rw [List.cons_append, ← hl]
        · intro o hoo
          rcases List.mem_cons.mp hoo with h1 | h1
          · rw [h1]; exact hx
          · exact hpre o h1
        · rw [← h.1, List.cons_append, ← h.2, hl3, hr]

theorem find?_append_found (P : Order → Prop) [DecidablePred P]
    (post : List Order) (o0 : Order) (ho : P o0) :
    ∀ pre : List Order, (∀ o ∈ pre, ¬ P o) →
      (pre ++ o0 :: post).find? (fun x => decide (P x)) = some o0 := by
  intro pre
  induction pre with
  | nil =>
    intro _
    simp only [List.nil_append]
    rw [List.find?_cons_of_pos]
    simpa using ho
  | cons x rest ih =>
    intro hpre
    have hx : ¬ P x := hpre x (List.mem_cons_self _ _)
    rw [List.cons_append, List.find?_cons_of_neg]
    · exact ih (fun o h => hpre o (List.mem_cons_of_mem _ h))
    · simpa using hx

/-- C5 amended: `syncVersion` strictly increases on a re-upload through
`create_order` (new version = matched version + 1) and on a sync-merge
replacement (the value at the id either stays the server copy or moves to
a strictly greater version), and on `update_order` whenever the patch body
does not itself contain a `syncVersion` key; a patch carrying
`syncVersion: v` makes the stored version `v + 1`, which can be lower than
the previous one (see the counterexample). -/
theorem syncVersion_increase_amended :
    (∀ (now : Nat) (user : User) (orderId : String) (p : Patch) (db db2 : DB) (o o2 : Order),
        p.syncVersion = none →
        db.orders.find? (fun x => decide (x.id = orderId)) = some o →
        update_order now user orderId p db = UpdateResult.ok db2 o2 →
        o.syncVersion < o2.syncVersion)
    ∧ (∀ (now : Nat) (fn uid : String) (payload : List (List String))
          (l l2 : List Order) (o2 o0 : Order),
        createDedup now fn uid payload l = some (l2, o2) →
        l.find? (fun x => decide (x.fileName = fn ∧ x.userId = uid)) = some o0 →
        o2.syncVersion = o0.syncVersion + 1 ∧ o0.syncVersion < o2.syncVersion)
    ∧ (∀ (user : User) (freshIds : Nat → String) (m : List (String × Order)) (n : Nat)
          (co : ClientOrder) (oid : String) (so v : Order),
        co.id = some oid →
        alistGet m oid = some so →
        alistGet (syncStep user freshIds (m, n) co).1 oid = some v →
        v = so ∨ so.syncVersion < v.syncVersion) := by
  refine ⟨?_, ?_, ?_⟩
  · intro now user orderId p db db2 o o2 hp hfind hup
    unfold update_order at hup
    rw [hfind] at hup
    replace hup :
        (if ¬ user.isAdmin = true ∧ o.userId ≠ user.id then UpdateResult.forbidden
         else UpdateResult.ok
           { db with orders := replaceFirst orderId (bumpPatched now o p) db.orders }
           (bumpPatched now o p))
          = UpdateResult.ok db2 o2 := hup
    by_cases hperm : ¬ user.isAdmin = true ∧ o.userId ≠ user.id
    · rw [if_pos hperm] at hup
      cases hup
    · rw [if_neg hperm] at hup
      cases hup
      simp [bumpPatched, applyPatch, hp]
  · intro now fn uid payload l l2 o2 o0 hded hfind
    rcases createDedup_some_decomp now fn uid payload l l2 o2 hded
      with ⟨pre, ox, post, hl, hpre, hox, ho2, _⟩
    rw [hl] at hfind
    rw [find?_append_found (fun x => x.fileName = fn ∧ x.userId = uid) post ox hox pre hpre]
      at hfind
    cases hfind
    constructor
    · rw [ho2]; rfl
    · rw [ho2]
      exact Nat.lt_succ_self _
  · intro user freshIds m n co oid so v hco hget hv
    rw [syncStep_get_match user freshIds m n co oid so hco hget] at hv
    by_cases h : so.syncVersion < co.syncVersion
    · right
      rw [if_pos h] at hv
      have : v = co.toOrder oid := by
        injection hv with h2
        exact h2.symm
      rw [this]
      exact h
    · left
      rw [if_neg h] at hv
      injection hv with h2
      exact h2.symm

/-- C5 amended witness: a patch without a `syncVersion` key bumps `o1`
from version 5 to 6. -/
theorem syncVersion_increase_amended_witness :
    exOrder1.syncVersion < exOrder1Patched.syncVersion :=
  syncVersion_increase_amended.1 100 exUser1 "o1" exPatchData exDB1 exDB1Patched
    exOrder1 exOrder1Patched rfl (by decide) (by decide)

/-- C6 counterexample: `db_cache.copy()` is a SHALLOW copy, so mutating the
nested orders list through the snapshot returned by the cache-hit path of
`load_db` changes the cached state, and a subsequent cache-hit `load_db`
observes the mutation — the returned value is not isolated from the cache. -/
theorem load_db_cacheHit_shared_counterexample :
    (snapshotView (writeOrderCell exHeap (load_db_cacheHit exCacheRef).ordersA []) exCacheRef
      ≠ snapshotView exHeap exCacheRef)
    ∧ (snapshotView (writeOrderCell exHeap (load_db_cacheHit exCacheRef).ordersA [])
          (load_db_cacheHit exCacheRef)
      ≠ snapshotView exHeap exCacheRef) := by
  constructor <;> decide

/-- C6 amended: the cache-hit path returns a SHALLOW copy: the top-level
record is fresh (rebinding a top-level collection to a freshly allocated
address leaves the cached view unchanged, third conjunct), but the nested
collections are shared with the cache, so an in-place mutation through the
returned snapshot is visible in the cached view (second conjunct). -/
theorem load_db_cacheHit_shallow_copy (h : Heap) (cache : DBRef) (l : List Order) (a : Nat) :
    load_db_cacheHit cache = cache
    ∧ snapshotView (writeOrderCell h (load_db_cacheHit cache).ordersA l) cache
        = { snapshotView h cache with orders := l }
    ∧ (a ≠ cache.ordersA →
        snapshotView (writeOrderCell h a l) cache = snapshotView h cache) := by
  refine ⟨rfl, ?_, ?_⟩
  · simp [snapshotView, writeOrderCell, load_db_cacheHit]
  · intro ha
    have ha2 : cache.ordersA ≠ a := fun e => ha e.symm
    simp [snapshotView, writeOrderCell, ha2]

/-- C6 amended witness: writing through a fresh address 7 leaves the
concrete cached view unchanged. -/
theorem load_db_cacheHit_shallow_copy_witness :
    snapshotView (writeOrderCell exHeap 7 []) exCacheRef = snapshotView exHeap exCacheRef :=
  (load_db_cacheHit_shallow_copy exHeap exCacheRef [] 7).2.2 (by decide)

/-- C7: two `create_order` calls with the same `fileName` for the same user
leave exactly one matching Order (assuming the store starts with at most
one, which the dedup policy itself maintains); the second call reports an
update, replaces `data` with the second payload, refreshes `updatedAt`,
increments `syncVersion` by one, keeps the Order id, and appends nothing. -/
theorem create_order_idempotent_reupload
    (now1 now2 : Nat) (f1 f2 : String) (user : User)
    (fileName up1 up2 : String) (d1 d2 : List (List String)) (db : DB)
    (hcount : db.orders.countP
        (fun o => decide (o.fileName = fileName ∧ o.userId = user.id)) ≤ 1) :
    ((create_order now2 f2 user fileName up2 d2
        (create_order now1 f1 user fileName up1 d1 db).1).1.orders.countP
      (fun o => decide (o.fileName = fileName ∧ o.userId = user.id)) = 1)
    ∧ (create_order now2 f2 user fileName up2 d2
        (create_order now1 f1 user fileName up1 d1 db).1).2.2 = true
    ∧ (create_order now2 f2 user fileName up2 d2
        (create_order now1 f1 user fileName up1 d1 db).1).2.1.data = d2
    ∧ (create_order now2 f2 user fileName up2 d2
        (create_order now1 f1 user fileName up1 d1 db).1).2.1.updatedAt = now2
    ∧ (create_order now2 f2 user fileName up2 d2
        (create_order now1 f1 user fileName up1 d1 db).1).2.1.syncVersion
        = (create_order now1 f1 user fileName up1 d1 db).2.1.syncVersion + 1
    ∧ (create_order now2 f2 user fileName up2 d2
        (create_order now1 f1 user fileName up1 d1 db).1).2.1.id
        = (create_order now1 f1 user fileName up1 d1 db).2.1.id
    ∧ (create_order now2 f2 user fileName up2 d2
        (create_order now1 f1 user fileName up1 d1 db).1).1.orders.length
        = (create_order now1 f1 user fileName up1 d1 db).1.orders.length := by
  cases hm : createDedup now1 fileName user.id d1 db.orders with
  | none =>
    have hall := createDedup_none_forall now1 fileName user.id d1 db.orders hm
    have hr1 : create_order now1 f1 user fileName up1 d1 db
        = ({ db with orders := db.orders ++
              [{ id := f1, userId := user.id, userEmail := user.email,
                 fileName := fileName, uploadDate := up1, data := d1,
                 createdAt := now1, updatedAt := now1, syncVersion := 1 }] },
           { id := f1, userId := user.id, userEmail := user.email,
             fileName := fileName, uploadDate := up1, data := d1,
             createdAt := now1, updatedAt := now1, syncVersion := 1 }, false) := by
      simp [create_order, hm]
    have hfound := createDedup_append_found now2 fileName user.id d2 []
      ({ id := f1, userId := user.id, userEmail := user.email,
         fileName := fileName, uploadDate := up1, data := d1,
         createdAt := now1, updatedAt := now1, syncVersion := 1 }) ⟨rfl, rfl⟩
      db.orders hall
    have hr2 : create_order now2 f2 user fileName up2 d2
        (create_order now1 f1 user fileName up1 d1 db).1
        = ({ db with orders := db.orders ++
              [reuploadBump now2 d2
                { id := f1, userId := user.id, userEmail := user.email,
                  fileName := fileName, uploadDate := up1, data := d1,
                  createdAt := now1, updatedAt := now1, syncVersion := 1 }] },
           reuploadBump now2 d2
             { id := f1, userId := user.id, userEmail := user.email,
               fileName := fileName, uploadDate := up1, data := d1,
               createdAt := now1, updatedAt := now1, syncVersion := 1 }, true) := by
      rw [hr1]
      simp [create_order, hfound]
    rw [hr2, hr1]
    have hzero : db.orders.countP
        (fun o => decide (o.fileName = fileName ∧ o.userId = user.id)) = 0 := by
      rw [List.countP_eq_zero]
      intro o ho
      simpa using hall o ho
    refine ⟨?_, rfl, rfl, rfl, rfl, rfl, by simp⟩
    simp [List.countP_append, hzero, List.countP_cons, reuploadBump]
    intro a ha hfn
    exact fun huid => hall a ha ⟨hfn, huid⟩
  | some pr =>
    obtain ⟨l1, o1⟩ := pr
    rcases createDedup_some_decomp now1 fileName user.id d1 db.orders l1 o1 hm
      with ⟨pre, o0, post, hl, hpre, ho0, ho1, hl1⟩
    have hzeropre : pre.countP
        (fun o => decide (o.fileName = fileName ∧ o.userId = user.id)) = 0 := by
      rw [List.countP_eq_zero]
      intro o ho
      simpa using hpre o ho
    have hzeropost : post.countP
        (fun o => decide (o.fileName = fileName ∧ o.userId = user.id)) = 0 := by
      have : db.orders.countP
          (fun o => decide (o.fileName = fileName ∧ o.userId = user.id))
          = 1 + post.countP (fun o => decide (o.fileName = fileName ∧ o.userId = user.id)) := by
        rw [hl, List.countP_append, List.countP_cons, hzeropre]
        simp [ho0.1, ho0.2]
        omega
      omega
    have hr1 : create_order now1 f1 user fileName up1 d1 db
        = ({ db with orders := l1 }, o1, true) := by
      simp [create_order, hm]
    have hmatch1 : o1.fileName = fileName ∧ o1.userId = user.id := by
      rw [ho1]
      exact ⟨ho0.1, ho0.2⟩
    have hfound2 := createDedup_append_found now2 fileName user.id d2 post o1 hmatch1 pre hpre
    have hr2 : create_order now2 f2 user fileName up2 d2
        (create_order now1 f1 user fileName up1 d1 db).1
        = ({ db with orders := pre ++ reuploadBump now2 d2 o1 :: post },
           reuploadBump now2 d2 o1, true) := by
      rw [hr1]
      simp only [create_order]
      rw [hl1]
      rw [hfound2]
    rw [hr2, hr1]
    refine ⟨?_, rfl, rfl, rfl, rfl, rfl, ?_⟩
    · simp only [List.countP_append, List.countP_cons, hzeropre, hzeropost, reuploadBump]
      simp [hmatch1.1, hmatch1.2]
    · rw [hl1]
      simp

/-- C7 witness: two concrete uploads of `flightA` leave one matching Order
and the second call reports an update. -/
theorem create_order_idempotent_reupload_witness :
    ((create_order 200 "id2" exUser1 "flightA" "d2" [["b"]]
        (create_order 100 "id1" exUser1 "flightA" "d1" [["a"]] exDBEmpty).1).1.orders.countP
      (fun o => decide (o.fileName = "flightA" ∧ o.userId = exUser1.id)) = 1)
    ∧ (create_order 200 "id2" exUser1 "flightA" "d2" [["b"]]
        (create_order 100 "id1" exUser1 "flightA" "d1" [["a"]] exDBEmpty).1).2.2 = true :=
  ⟨(create_order_idempotent_reupload 100 200 "id1" "id2" exUser1 "flightA" "d1" "d2"
      [["a"]] [["b"]] exDBEmpty (by decide)).1,
   (create_order_idempotent_reupload 100 200 "id1" "id2" exUser1 "flightA" "d1" "d2"
      [["a"]] [["b"]] exDBEmpty (by decide)).2.1⟩

theorem verifyFold_active_step (now : Nat) (token : String)
    (acc : List Session × Option User × List User) (s : Session) :
    (verifyFold now token acc s).1
      = if now - s.created < thirtyDays then acc.1 ++ [s] else acc.1 := by
  obtain ⟨a, u, us⟩ := acc
  by_cases hv : now - s.created < thirtyDays
  · rw [if_pos hv]
    by_cases ht : s.token = token
    · rcases hst : stampFirst now s.userId us with ⟨r, us2⟩
      cases r <;> simp [verifyFold, hv, ht, hst]
    · simp [verifyFold, hv, ht]
  · rw [if_neg hv]
    simp [verifyFold, hv]

theorem verifyFold_active (now : Nat) (token : String) (sessions : List Session) :
    ∀ acc, (sessions.foldl (verifyFold now token) acc).1
      = acc.1 ++ sessions.filter (fun s => decide (now - s.created < thirtyDays)) := by
  induction sessions with
  | nil => intro acc; simp
  | cons s rest ih =>
    intro acc
    rw [List.foldl_cons, ih]
    rw [verifyFold_active_step]
    by_cases hv : now - s.created < thirtyDays
    · rw [if_pos hv, List.filter_cons_of_pos (by simpa using hv)]
      simp
    · rw [if_neg hv, List.filter_cons_of_neg (by simpa using hv)]

theorem verifyFold_user_step_none (now : Nat) (token : String)
    (acc : List Session × Option User × List User) (s : Session)
    (h : s.token = token → ¬ (now - s.created < thirtyDays)) :
    (verifyFold now token acc s).2.1 = acc.2.1 := by
  obtain ⟨a, u, us⟩ := acc
  by_cases hv : now - s.created < thirtyDays
  · have ht : ¬ (s.token = token) := fun e => h e hv
    simp [verifyFold, hv, ht]
  · simp [verifyFold, hv]

theorem verifyFold_user_none (now : Nat) (token : String) (sessions : List Session) :
    ∀ acc, (∀ s ∈ sessions, s.token = token → ¬ (now - s.created < thirtyDays)) →
      (sessions.foldl (verifyFold now token) acc).2.1 = acc.2.1 := by
  induction sessions with
  | nil => intro acc _; rfl
  | cons s rest ih =>
    intro acc hall
    rw [List.foldl_cons, ih _ (fun x hx => hall x (List.mem_cons_of_mem _ hx))]
    exact verifyFold_user_step_none now token acc s (hall s (List.mem_cons_self _ _))

theorem length_filter_lt_of_mem_false (p : Session → Bool) (l : List Session) (s : Session)
    (hs : s ∈ l) (hp : p s = false) : (l.filter p).length < l.length := by
  induction l with
  | nil => cases hs
  | cons x rest ih =>
    rcases List.mem_cons.mp hs with h | h
    · subst h
      rw [List.filter_cons_of_neg (by simp [hp])]
      exact Nat.lt_succ_of_le (List.length_filter_le _ _)
    · by_cases hx : p x
      · rw [List.filter_cons_of_pos hx]
        simpa using Nat.succ_lt_succ (ih h)
      · rw [List.filter_cons_of_neg (by simpa using hx)]
        exact Nat.lt_succ_of_lt (ih h)

/-- C8: a Session created 30 or more days ago never validates — provided
every Session carrying the same token is also expired (tokens are unique
by construction) — and any `verify_token` call with a non-empty token that
observes the expired Session drops it from the persisted session list and
saves the pruned list. -/
theorem verify_token_expired (now : Nat) (db : DB) (s : Session)
    (hs : s ∈ db.sessions)
    (hexp : s.created + thirtyDays ≤ now)
    (huniq : ∀ s2 ∈ db.sessions, s2.token = s.token → s2.created + thirtyDays ≤ now) :
    (verify_token now s.token db).1 = none
    ∧ (∀ token, token ≠ "" →
        s ∉ (verify_token now token db).2.1.sessions
        ∧ (verify_token now token db).2.2 = true) := by
  have hsinvalid : ¬ (now - s.created < thirtyDays) := by omega
  constructor
  · by_cases htok : s.token = ""
    · simp [verify_token, htok]
    · have hnone : (db.sessions.foldl (verifyFold now s.token) ([], none, db.users)).2.1
          = none := by
        apply verifyFold_user_none
        intro s2 hs2 he
        have := huniq s2 hs2 he
        omega
      simp only [verify_token, if_neg htok]
      by_cases hc : (db.sessions.foldl
          (verifyFold now s.token) ([], none, db.users)).1.length ≠ db.sessions.length
      · rw [if_pos hc]
        exact hnone
      · rw [if_neg hc]
        exact hnone
  · intro token htok
    have hactive : (db.sessions.foldl (verifyFold now token) ([], none, db.users)).1
        = db.sessions.filter (fun x => decide (now - x.created < thirtyDays)) := by
      simpa using verifyFold_active now token db.sessions ([], none, db.users)
    have hlt : (db.sessions.filter (fun x => decide (now - x.created < thirtyDays))).length
        < db.sessions.length :=
      length_filter_lt_of_mem_false _ _ s hs (by simpa using hsinvalid)
    have hc : (db.sessions.foldl (verifyFold now token) ([], none, db.users)).1.length
        ≠ db.sessions.length := by
      rw [hactive]
      omega
    constructor
    · simp only [verify_token, if_neg htok, if_pos hc]
      rw [hactive]
      intro hmem
      have := (List.mem_filter.mp hmem).2
      exact hsinvalid (by simpa using this)
    · simp only [verify_token, if_neg htok, if_pos hc]

/-- C8 witness: a session created exactly 30 days before `now` does not
validate, is pruned, and the pruned list is saved. -/
theorem verify_token_expired_witness :
    (verify_token thirtyDays "tok1" exDBSess).1 = none
    ∧ exSession ∉ (verify_token thirtyDays "tok1" exDBSess).2.1.sessions
    ∧ (verify_token thirtyDays "tok1" exDBSess).2.2 = true := by
  have h := verify_token_expired thirtyDays exDBSess exSession
    (List.mem_cons_self _ _) (by simp [exSession])
    (fun s2 hs2 _ => by
      simp only [exDBSess, List.mem_singleton] at hs2
      rw [hs2]
      simp [exSession])
  exact ⟨h.1, (h.2 "tok1" (by decide)).1, (h.2 "tok1" (by decide)).2⟩

/-- C4 amended witness: a concrete non-admin sync leaves the foreign Order
`o9` exactly once. -/
theorem sync_nonadmin_preserves_other_users_witness :
    (sync_data exUser1 exFresh [exOrderOther] []).1.countP
        (fun o => decide (o = exOrderOther)) = 1 :=
  (sync_nonadmin_preserves_other_users exUser1 exFresh [exOrderOther] [] exOrderOther rfl
    (by simp) (by simp) (by decide)
    (by intro i; show ("F0" : String) ≠ "o9"; decide) (by simp)).2
